import Mathlib

/-!
Shallow embedding of the netmgr DNS reconciler.

The repository derives a flat list of DNS records from a Zone → Network →
Server configuration tree (src/model.rs) and diffs the derived records
against observed records keyed by name (src/main.rs, Diff::new).

Strings are Lean Strings; Rust format! concatenations become String append.
The Rust HashMap built by collect() is modelled by an association list with
last-wins insertion (insertRec / indexByName): lookups agree with the
HashMap, key order is the deterministic first-occurrence order (HashMap
iteration order is unspecified, and no claim depends on it).
-/

/-- Record enum from src/model.rs: A(name, value) or Cname(name, value). -/
inductive Record where
  | A : String → String → Record
  | Cname : String → String → Record
deriving DecidableEq, Repr

namespace Record

/-- Record::name from src/model.rs. -/
def name : Record → String
  | A n _ => n
  | Cname n _ => n

/-- Record::value from src/model.rs. -/
def value : Record → String
  | A _ v => v
  | Cname _ v => v

@[simp] theorem name_A (n v : String) : (Record.A n v).name = n := rfl

@[simp] theorem name_Cname (n v : String) : (Record.Cname n v).name = n := rfl

end Record

/-- Server struct from src/model.rs. -/
structure Server where
  name : String
  private_ip : String
  aliases : List String
deriving DecidableEq, Repr

/-- Network struct from src/model.rs. -/
structure Network where
  name : String
  root : String
  servers : List Server
deriving DecidableEq, Repr

/-- Zone struct from src/model.rs; private_namespace embeds the source
field holding the private name-space token. -/
structure Zone where
  domain : String
  private_namespace : String
  networks : List Network
deriving DecidableEq, Repr

/-- RecordTypeFilter enum from src/model.rs. -/
inductive RecordTypeFilter where
  | Public
  | Private
  | Both
deriving DecidableEq, Repr

namespace RecordTypeFilter

/-- RecordTypeFilter::public from src/model.rs. -/
def isPublic : RecordTypeFilter → Bool
  | Public => true
  | Private => false
  | Both => true

/-- RecordTypeFilter::private from src/model.rs. -/
def isPrivate : RecordTypeFilter → Bool
  | Public => false
  | Private => true
  | Both => true

end RecordTypeFilter

namespace Server

/-- Server::public_records from src/model.rs: a self alias pointing at the
network root when this server is not the root, then one alias record per
configured alias, all pointing at the root's public name. -/
def public_records (s : Server) (suffix root domain : String) : List Record :=
  (if s.name = root then []
   else [Record.Cname (s.name ++ "." ++ suffix ++ "." ++ domain)
                      (root ++ "." ++ suffix ++ "." ++ domain)]) ++
  s.aliases.map (fun a =>
    Record.Cname (a ++ "." ++ suffix ++ "." ++ domain)
                 (root ++ "." ++ suffix ++ "." ++ domain))

/-- Server::private_records from src/model.rs: an address record for the
server itself, then one alias record per configured alias, pointing at the
server's own private name. -/
def private_records (s : Server) (suffix domain : String) : List Record :=
  Record.A (s.name ++ "." ++ suffix ++ "." ++ domain) s.private_ip ::
  s.aliases.map (fun a =>
    Record.Cname (a ++ "." ++ suffix ++ "." ++ domain)
                 (s.name ++ "." ++ suffix ++ "." ++ domain))

end Server

namespace Network

/-- Network::public_records from src/model.rs. -/
def public_records (n : Network) (domain : String) : List Record :=
  (n.servers.flatMap (fun s => s.public_records n.name n.root domain)) ++
  [Record.Cname (n.name ++ "." ++ domain)
                (n.root ++ "." ++ n.name ++ "." ++ domain)]

/-- Network::private_records from src/model.rs; the per-server suffix is
network.name ++ "." ++ private_namespace, as built by format! there. -/
def private_records (n : Network) (pns domain : String) : List Record :=
  (n.servers.flatMap (fun s => s.private_records (n.name ++ "." ++ pns) domain)) ++
  [Record.Cname (n.name ++ "." ++ pns ++ "." ++ domain)
                (n.root ++ "." ++ n.name ++ "." ++ pns ++ "." ++ domain)]

end Network

namespace Zone

/-- Zone::records from src/model.rs: the public loop's output followed by
the private loop's output, each guarded by the filter. -/
def records (z : Zone) (filter : RecordTypeFilter) : List Record :=
  (if filter.isPublic then
    z.networks.flatMap (fun n => n.public_records z.domain)
   else []) ++
  (if filter.isPrivate then
    z.networks.flatMap (fun n => n.private_records z.private_namespace z.domain)
   else [])

/-- Zone::all_records from src/model.rs. -/
def all_records (z : Zone) : List Record :=
  z.records RecordTypeFilter.Both

end Zone

/-- One insertion step of building the name-keyed map: replace the value of
an existing key, else append a fresh entry. This is the HashMap insert
performed for each record by collect() in Diff::new (src/main.rs). -/
def insertRec : List (String × Record) → Record → List (String × Record)
  | [], r => [(r.name, r)]
  | p :: m, r => if p.1 = r.name then (r.name, r) :: m else p :: insertRec m r

/-- The name-keyed map built by `a.into_iter().map(|r| (r.name(), r)).collect()`
in Diff::new (src/main.rs): records inserted left to right, last one wins. -/
def indexByName (rs : List Record) : List (String × Record) :=
  rs.foldl insertRec []

/-- HashMap::get on the modelled map. -/
def mapGet (m : List (String × Record)) (k : String) : Option Record :=
  (m.find? (fun p => p.1 == k)).map Prod.snd

/-- The last record of the list carrying the given name, if any. -/
def lastWithName : List Record → String → Option Record
  | [], _ => none
  | r :: rs, k =>
    match lastWithName rs k with
    | some r' => some r'
    | none => if r.name = k then some r else none

/-- Diff struct from src/main.rs (field name superflous as in the source). -/
structure Diff where
  superflous : List Record
  missing : List Record
  changed : List (Record × Record)
deriving DecidableEq, Repr

/-- Diff::new from src/main.rs: index both inputs by name, then one pass
over the observed map a (superflous when the name is absent from b, changed
when present with a different record, the pair being (desired, observed)),
and one pass over the desired map b (missing when absent from a). -/
def Diff.new (a b : List Record) : Diff :=
  let ma := indexByName a
  let mb := indexByName b
  { superflous := (ma.filter (fun p => (mapGet mb p.1).isNone)).map Prod.snd
    missing := (mb.filter (fun p => (mapGet ma p.1).isNone)).map Prod.snd
    changed := ma.filterMap (fun p =>
      match mapGet mb p.1 with
      | none => none
      | some rb => if p.2 = rb then none else some (rb, p.2)) }

/-- The worked scenario zone of the spec: domain ex.com, private token
internal, one network web rooted at web1 with servers web1 (alias www) and
web2. -/
def exServer1 : Server := { name := "web1", private_ip := "10.0.0.1", aliases := ["www"] }

def exServer2 : Server := { name := "web2", private_ip := "10.0.0.2", aliases := [] }

def exNetwork : Network := { name := "web", root := "web1", servers := [exServer1, exServer2] }

def exZone : Zone := { domain := "ex.com", private_namespace := "internal", networks := [exNetwork] }

/-! ### Lemmas on the name-keyed map -/

theorem insertRec_keys (m : List (String × Record)) (r : Record) :
    (insertRec m r).map Prod.fst =
      if r.name ∈ m.map Prod.fst then m.map Prod.fst
      else m.map Prod.fst ++ [r.name] := by
  induction m with
  | nil => simp [insertRec]
  | cons p m ih =>
    by_cases h : p.1 = r.name
    · simp [insertRec, h]
    · by_cases hm : r.name ∈ m.map Prod.fst <;>
        simp [insertRec, h, ih, hm, Ne.symm h]

theorem nodup_keys_insertRec (m : List (String × Record)) (r : Record)
    (h : (m.map Prod.fst).Nodup) : ((insertRec m r).map Prod.fst).Nodup := by
  rw [insertRec_keys]
  by_cases hm : r.name ∈ m.map Prod.fst <;>
    simp [hm, List.nodup_append, h]

theorem nodup_keys_foldl (rs : List Record) :
    ∀ m : List (String × Record), (m.map Prod.fst).Nodup →
      ((rs.foldl insertRec m).map Prod.fst).Nodup := by
  induction rs with
  | nil => intro m h; simpa using h
  | cons r rs ih =>
    intro m h
    exact ih (insertRec m r) (nodup_keys_insertRec m r h)

theorem nodup_keys_indexByName (rs : List Record) :
    ((indexByName rs).map Prod.fst).Nodup :=
  nodup_keys_foldl rs [] (by simp)

theorem mapGet_cons (p : String × Record) (m : List (String × Record)) (k : String) :
    mapGet (p :: m) k = if p.1 = k then some p.2 else mapGet m k := by
  by_cases h : p.1 = k
  · simp [mapGet, List.find?_cons_of_pos, h]
  · rw [mapGet, List.find?_cons_of_neg, if_neg h]; · rfl
    simpa using h

theorem mapGet_insertRec (m : List (String × Record)) (r : Record) (k : String) :
    mapGet (insertRec m r) k = if r.name = k then some r else mapGet m k := by
  induction m with
  | nil => simp [insertRec, mapGet_cons, mapGet]
  | cons p m ih =>
    by_cases h : p.1 = r.name
    · by_cases hk : r.name = k
      · simp [insertRec, h, mapGet_cons, hk]
      · simp [insertRec, h, mapGet_cons, hk, h ▸ hk]
    · by_cases hk : p.1 = k
      · have hr : ¬ r.name = k := fun hrr => h (hk.trans hrr.symm)
        have h1 : insertRec (p :: m) r = p :: insertRec m r := by
          simp [insertRec, h]
        rw [h1, mapGet_cons, if_pos hk, if_neg hr, mapGet_cons, if_pos hk]
      · simp [insertRec, h, mapGet_cons, hk, ih]

theorem mapGet_foldl (rs : List Record) :
    ∀ (m : List (String × Record)) (k : String),
      mapGet (rs.foldl insertRec m) k =
        match lastWithName rs k with
        | some r => some r
        | none => mapGet m k := by
  induction rs with
  | nil => intro m k; rfl
  | cons r rs ih =>
    intro m k
    have : (r :: rs).foldl insertRec m = rs.foldl insertRec (insertRec m r) := rfl
    rw [this, ih (insertRec m r) k, mapGet_insertRec]
    cases h : lastWithName rs k with
    | some r' => simp [lastWithName, h]
    | none =>
      by_cases hk : r.name = k <;> simp [lastWithName, h, hk]

/-- The modelled HashMap lookup returns the last record of the input list
with the requested name. -/
theorem mapGet_indexByName (rs : List Record) (k : String) :
    mapGet (indexByName rs) k = lastWithName rs k := by
  have h := mapGet_foldl rs [] k
  cases hl : lastWithName rs k <;> simp [indexByName, hl, mapGet] at h ⊢ <;> exact h

theorem entry_name_insertRec (m : List (String × Record)) (r : Record)
    (h : ∀ p ∈ m, (p : String × Record).2.name = p.1) :
    ∀ p ∈ insertRec m r, (p : String × Record).2.name = p.1 := by
  induction m with
  | nil => intro p hp; simp [insertRec] at hp; simp [hp]
  | cons q m ih =>
    intro p hp
    by_cases hq : q.1 = r.name
    · simp [insertRec, hq] at hp
      rcases hp with hp | hp
      · simp [hp]
      · exact h p (List.mem_cons_of_mem q hp)
    · simp only [insertRec, if_neg hq, List.mem_cons] at hp
      rcases hp with hp | hp
      · exact hp ▸ h q (List.mem_cons_self q m)
      · exact ih (fun p hp => h p (List.mem_cons_of_mem q hp)) p hp

theorem entry_name_indexByName (rs : List Record) :
    ∀ p ∈ indexByName rs, (p : String × Record).2.name = p.1 := by
  have : ∀ m : List (String × Record), (∀ p ∈ m, (p : String × Record).2.name = p.1) →
      ∀ p ∈ rs.foldl insertRec m, (p : String × Record).2.name = p.1 := by
    induction rs with
    | nil => intro m h; exact h
    | cons r rs ih =>
      intro m h
      exact ih (insertRec m r) (entry_name_insertRec m r h)
  exact this [] (by simp)

theorem mem_iff_mapGet (m : List (String × Record))
    (hnd : (m.map Prod.fst).Nodup) (k : String) (r : Record) :
    (k, r) ∈ m ↔ mapGet m k = some r := by
  induction m with
  | nil => simp [mapGet]
  | cons p m ih =>
    rw [mapGet_cons]
    have hnd' : p.1 ∉ m.map Prod.fst ∧ (m.map Prod.fst).Nodup := by
      rw [List.map_cons, List.nodup_cons] at hnd
      exact hnd
    obtain ⟨hp, hm⟩ := hnd'
    by_cases h : p.1 = k
    · simp only [if_pos h, List.mem_cons]
      constructor
      · rintro (hh | hh)
        · rw [← hh]
        · exact absurd (h ▸ List.mem_map_of_mem Prod.fst hh) hp
      · intro hh
        left
        cases p
        simp_all
    · simp only [if_neg h, List.mem_cons]
      rw [← ih hm]
      constructor
      · rintro (hh | hh)
        · cases p; simp_all
        · exact hh
      · exact Or.inr

theorem lastWithName_eq_none_iff (rs : List Record) (k : String) :
    lastWithName rs k = none ↔ ∀ r ∈ rs, r.name ≠ k := by
  induction rs with
  | nil => simp [lastWithName]
  | cons r rs ih =>
    constructor
    · intro hh x hx
      cases hl : lastWithName rs k with
      | some r' => simp [lastWithName, hl] at hh
      | none =>
        by_cases hk : r.name = k
        · simp [lastWithName, hl, hk] at hh
        · rcases List.mem_cons.mp hx with rfl | hx
          · exact hk
          · exact ih.mp hl x hx
    · intro hh
      have hl : lastWithName rs k = none :=
        ih.mpr fun x hx => hh x (List.mem_cons_of_mem r hx)
      have hk : r.name ≠ k := hh r (List.mem_cons_self r rs)
      simp [lastWithName, hl, hk]

/-! ### Characterizing the three Diff outputs -/

theorem Diff.new_superflous (a b : List Record) :
    (Diff.new a b).superflous =
      ((indexByName a).filter
        (fun p => (mapGet (indexByName b) p.1).isNone)).map Prod.snd := rfl

theorem Diff.new_missing (a b : List Record) :
    (Diff.new a b).missing =
      ((indexByName b).filter
        (fun p => (mapGet (indexByName a) p.1).isNone)).map Prod.snd := rfl

theorem Diff.new_changed (a b : List Record) :
    (Diff.new a b).changed =
      (indexByName a).filterMap (fun p =>
        match mapGet (indexByName b) p.1 with
        | none => none
        | some rb => if p.2 = rb then none else some (rb, p.2)) := rfl

theorem mem_superflous_iff (a b : List Record) (r : Record) :
    r ∈ (Diff.new a b).superflous ↔
      mapGet (indexByName a) r.name = some r ∧
      mapGet (indexByName b) r.name = none := by
  rw [Diff.new_superflous]
  simp only [List.mem_map, List.mem_filter, Option.isNone_iff_eq_none]
  constructor
  · rintro ⟨p, ⟨hpm, hpn⟩, rfl⟩
    have hname : p.2.name = p.1 := entry_name_indexByName a p hpm
    refine ⟨?_, ?_⟩
    · rw [hname]
      exact (mem_iff_mapGet _ (nodup_keys_indexByName a) p.1 p.2).mp (by
        cases p; exact hpm)
    · rw [hname]; exact hpn
  · rintro ⟨ha, hb⟩
    exact ⟨(r.name, r),
      ⟨(mem_iff_mapGet _ (nodup_keys_indexByName a) r.name r).mpr ha, hb⟩, rfl⟩

theorem mem_missing_iff (a b : List Record) (r : Record) :
    r ∈ (Diff.new a b).missing ↔
      mapGet (indexByName b) r.name = some r ∧
      mapGet (indexByName a) r.name = none := by
  rw [Diff.new_missing]
  simp only [List.mem_map, List.mem_filter, Option.isNone_iff_eq_none]
  constructor
  · rintro ⟨p, ⟨hpm, hpn⟩, rfl⟩
    have hname : p.2.name = p.1 := entry_name_indexByName b p hpm
    refine ⟨?_, ?_⟩
    · rw [hname]
      exact (mem_iff_mapGet _ (nodup_keys_indexByName b) p.1 p.2).mp (by
        cases p; exact hpm)
    · rw [hname]; exact hpn
  · rintro ⟨hb, ha⟩
    exact ⟨(r.name, r),
      ⟨(mem_iff_mapGet _ (nodup_keys_indexByName b) r.name r).mpr hb, ha⟩, rfl⟩

theorem mem_changed_iff (a b : List Record) (d o : Record) :
    (d, o) ∈ (Diff.new a b).changed ↔
      mapGet (indexByName a) o.name = some o ∧
      mapGet (indexByName b) o.name = some d ∧ o ≠ d := by
  rw [Diff.new_changed]
  simp only [List.mem_filterMap]
  constructor
  · rintro ⟨p, hpm, hf⟩
    have hname : p.2.name = p.1 := entry_name_indexByName a p hpm
    cases hg : mapGet (indexByName b) p.1 with
    | none => rw [hg] at hf; exact absurd hf (by simp)
    | some rb =>
      rw [hg] at hf
      have hf' : (if p.2 = rb then none else some (rb, p.2)) = some (d, o) := hf
      by_cases he : p.2 = rb
      · rw [if_pos he] at hf'; exact absurd hf' (by simp)
      · rw [if_neg he] at hf'
        have h2 : (rb, p.2) = (d, o) := Option.some.inj hf'
        have hd : rb = d := congrArg Prod.fst h2
        have ho : p.2 = o := congrArg Prod.snd h2
        subst hd; subst ho
        refine ⟨?_, ?_, ?_⟩
        · rw [hname]
          exact (mem_iff_mapGet _ (nodup_keys_indexByName a) p.1 p.2).mp (by
            cases p; exact hpm)
        · rw [hname]; exact hg
        · exact he
  · rintro ⟨ha, hb, hne⟩
    refine ⟨(o.name, o),
      (mem_iff_mapGet _ (nodup_keys_indexByName a) o.name o).mpr ha, ?_⟩
    simp [hb, hne]

theorem changed_fst_name (a b : List Record) (d o : Record)
    (h : (d, o) ∈ (Diff.new a b).changed) : d.name = o.name := by
  obtain ⟨_, hb, _⟩ := (mem_changed_iff a b d o).mp h
  exact entry_name_indexByName b (o.name, d)
    ((mem_iff_mapGet _ (nodup_keys_indexByName b) o.name d).mpr hb)

theorem nodup_filter_entry_names (m : List (String × Record))
    (hnd : (m.map Prod.fst).Nodup)
    (hname : ∀ p ∈ m, (p : String × Record).2.name = p.1)
    (pred : String × Record → Bool) :
    (((m.filter pred).map Prod.snd).map Record.name).Nodup := by
  have h1 : ((m.filter pred).map Prod.snd).map Record.name
      = (m.filter pred).map Prod.fst := by
    rw [List.map_map]
    exact List.map_congr_left fun p hp =>
      hname p (List.mem_of_mem_filter hp)
  rw [h1]
  exact ((List.filter_sublist m).map Prod.fst).nodup hnd

/-- The changed list's observed-side names are pairwise distinct. -/
theorem nodup_changed_snd_names (a b : List Record) :
    ((Diff.new a b).changed.map
      (fun p => (p : Record × Record).2.name)).Nodup := by
  rw [Diff.new_changed]
  have main : ∀ m : List (String × Record), (m.map Prod.fst).Nodup →
      (∀ p ∈ m, (p : String × Record).2.name = p.1) →
      ((m.filterMap (fun p =>
        match mapGet (indexByName b) p.1 with
        | none => none
        | some rb => if p.2 = rb then none else some (rb, p.2))).map
          (fun p => (p : Record × Record).2.name)).Nodup := by
    intro m
    induction m with
    | nil => intro _ _; simp
    | cons p m ih =>
      intro hnd hname
      have hnd' : p.1 ∉ m.map Prod.fst ∧ (m.map Prod.fst).Nodup := by
        rw [List.map_cons, List.nodup_cons] at hnd
        exact hnd
      obtain ⟨hp1, hm⟩ := hnd'
      have hnamet : ∀ q ∈ m, (q : String × Record).2.name = q.1 :=
        fun q hq => hname q (List.mem_cons_of_mem p hq)
      rw [List.filterMap_cons]
      cases hfp : (match mapGet (indexByName b) p.1 with
        | none => none
        | some rb => if p.2 = rb then none else some (rb, p.2) :
          Option (Record × Record)) with
      | none => exact ih hm hnamet
      | some q =>
        rw [List.map_cons]
        refine List.nodup_cons.mpr ⟨?_, ih hm hnamet⟩
        have hq2 : q.2 = p.2 := by
          cases hg : mapGet (indexByName b) p.1 with
          | none => rw [hg] at hfp; exact absurd hfp (by simp)
          | some rb =>
            rw [hg] at hfp
            have hfp' : (if p.2 = rb then none else some (rb, p.2)) = some q := hfp
            by_cases he : p.2 = rb
            · rw [if_pos he] at hfp'; exact absurd hfp' (by simp)
            · rw [if_neg he] at hfp'
              exact (congrArg Prod.snd (Option.some.inj hfp')).symm
        intro hmem
        obtain ⟨q', hq', heq⟩ := List.mem_map.mp hmem
        obtain ⟨p', hp', hfq'⟩ := List.mem_filterMap.mp hq'
        have hq'2 : q'.2 = p'.2 := by
          cases hg : mapGet (indexByName b) p'.1 with
          | none => rw [hg] at hfq'; exact absurd hfq' (by simp)
          | some rb =>
            rw [hg] at hfq'
            have hfq'' : (if p'.2 = rb then none else some (rb, p'.2)) = some q' := hfq'
            by_cases he : p'.2 = rb
            · rw [if_pos he] at hfq''; exact absurd hfq'' (by simp)
            · rw [if_neg he] at hfq''
              exact (congrArg Prod.snd (Option.some.inj hfq'')).symm
        have : p'.1 = p.1 := by
          rw [← hnamet p' hp', ← hq'2, heq, hq2, hname p (List.mem_cons_self p m)]
        exact hp1 (this ▸ List.mem_map_of_mem Prod.fst hp')
  exact main _ (nodup_keys_indexByName a) (entry_name_indexByName a)

/-- C1: after both inputs are indexed by name (last record of a name wins),
Diff::new returns exactly: superfluous = indexed observed records whose name
is absent from the desired index; missing = indexed desired records whose
name is absent from the observed index; changed = the (desired, observed)
pairs of records sharing a name but differing in variant or value; and a
name carrying identical records in both indexes contributes to no output. -/
theorem diff_new_spec (a b : List Record) :
    (∀ r : Record, r ∈ (Diff.new a b).superflous ↔
        mapGet (indexByName a) r.name = some r ∧
        mapGet (indexByName b) r.name = none) ∧
    (∀ r : Record, r ∈ (Diff.new a b).missing ↔
        mapGet (indexByName b) r.name = some r ∧
        mapGet (indexByName a) r.name = none) ∧
    (∀ d o : Record, (d, o) ∈ (Diff.new a b).changed ↔
        d.name = o.name ∧
        mapGet (indexByName b) o.name = some d ∧
        mapGet (indexByName a) o.name = some o ∧ o ≠ d) ∧
    (∀ r : Record, mapGet (indexByName a) r.name = some r →
        mapGet (indexByName b) r.name = some r →
        r ∉ (Diff.new a b).superflous ∧ r ∉ (Diff.new a b).missing ∧
        ∀ d o : Record, (d, o) ∈ (Diff.new a b).changed → o.name ≠ r.name) := by
  refine ⟨fun r => mem_superflous_iff a b r, fun r => mem_missing_iff a b r,
    fun d o => ?_, fun r ha hb => ?_⟩
  · constructor
    · intro h
      obtain ⟨h1, h2, h3⟩ := (mem_changed_iff a b d o).mp h
      exact ⟨changed_fst_name a b d o h, h2, h1, h3⟩
    · rintro ⟨_, h2, h1, h3⟩
      exact (mem_changed_iff a b d o).mpr ⟨h1, h2, h3⟩
  · refine ⟨?_, ?_, ?_⟩
    · intro h
      obtain ⟨_, h2⟩ := (mem_superflous_iff a b r).mp h
      rw [hb] at h2; exact Option.noConfusion h2
    · intro h
      obtain ⟨_, h2⟩ := (mem_missing_iff a b r).mp h
      rw [ha] at h2; exact Option.noConfusion h2
    · intro d o h heq
      obtain ⟨h1, h2, h3⟩ := (mem_changed_iff a b d o).mp h
      rw [heq, ha] at h1
      rw [heq, hb] at h2
      exact h3 ((Option.some.inj h1).symm.trans (Option.some.inj h2))

/-- C6: diffing any record list against itself yields empty superfluous,
empty missing and empty changed lists. -/
theorem diff_self_empty (X : List Record) :
    (Diff.new X X).superflous = [] ∧ (Diff.new X X).missing = [] ∧
    (Diff.new X X).changed = [] := by
  refine ⟨List.eq_nil_iff_forall_not_mem.mpr ?_,
    List.eq_nil_iff_forall_not_mem.mpr ?_,
    List.eq_nil_iff_forall_not_mem.mpr ?_⟩
  · intro r h
    obtain ⟨h1, h2⟩ := (mem_superflous_iff X X r).mp h
    rw [h1] at h2; exact Option.noConfusion h2
  · intro r h
    obtain ⟨h1, h2⟩ := (mem_missing_iff X X r).mp h
    rw [h1] at h2; exact Option.noConfusion h2
  · intro p h
    obtain ⟨d, o⟩ := p
    obtain ⟨h1, h2, h3⟩ := (mem_changed_iff X X d o).mp h
    rw [h1] at h2
    exact h3 (Option.some.inj h2)

/-- C8: each input of Diff::new is indexed into a name-keyed map whose
lookup returns the record occurring last in the input for the name, and the
whole diff is a function of the two indexes alone. -/
theorem diff_index_lastWins (a a' b b' : List Record) (k : String)
    (ha : indexByName a = indexByName a')
    (hb : indexByName b = indexByName b') :
    mapGet (indexByName a) k = lastWithName a k ∧
    Diff.new a b = Diff.new a' b' := by
  refine ⟨mapGet_indexByName a k, ?_⟩
  show Diff.new a b = Diff.new a' b'
  unfold Diff.new
  rw [ha, hb]

/-- Witness for diff_index_lastWins: indexing [A x 1, A x 2] keeps the later
A x 2, and the diff agrees with the one on the deduplicated input. -/
theorem diff_index_lastWins_witness :
    mapGet (indexByName [Record.A "x" "1", Record.A "x" "2"]) "x" =
      lastWithName [Record.A "x" "1", Record.A "x" "2"] "x" ∧
    Diff.new [Record.A "x" "1", Record.A "x" "2"] [Record.A "y" "3"] =
      Diff.new [Record.A "x" "2"] [Record.A "y" "3"] :=
  diff_index_lastWins [Record.A "x" "1", Record.A "x" "2"] [Record.A "x" "2"]
    [Record.A "y" "3"] [Record.A "y" "3"] "x" (by decide) (by decide)

/-- C10: the three outputs of Diff::new are name-unique and every changed
pair carries one single name: the desired-side names of changed equal the
observed-side names pointwise. -/
theorem diff_outputs_name_unique (a b : List Record) :
    ((Diff.new a b).superflous.map Record.name).Nodup ∧
    ((Diff.new a b).missing.map Record.name).Nodup ∧
    ((Diff.new a b).changed.map
      (fun p => (p : Record × Record).2.name)).Nodup ∧
    (Diff.new a b).changed.map (fun p => (p : Record × Record).1.name) =
      (Diff.new a b).changed.map (fun p => (p : Record × Record).2.name) := by
  refine ⟨?_, ?_, nodup_changed_snd_names a b, ?_⟩
  · rw [Diff.new_superflous]
    exact nodup_filter_entry_names _ (nodup_keys_indexByName a)
      (entry_name_indexByName a) _
  · rw [Diff.new_missing]
    exact nodup_filter_entry_names _ (nodup_keys_indexByName b)
      (entry_name_indexByName b) _
  · exact List.map_congr_left fun p hp => by
      obtain ⟨d, o⟩ := p
      exact changed_fst_name a b d o hp

theorem name_of_mapGet (rs : List Record) (n : String) (r : Record)
    (h : mapGet (indexByName rs) n = some r) : r.name = n :=
  entry_name_indexByName rs (n, r)
    ((mem_iff_mapGet _ (nodup_keys_indexByName rs) n r).mpr h)

/-- C5: every name occurring in either input of Diff::new falls into exactly
one of superfluous, missing, changed, or unchanged (appearing in none of the
three outputs); no name is in two of these classes. -/
theorem diff_partition (a b : List Record) (n : String)
    (h : n ∈ (a ++ b).map Record.name) :
    ((∃ r ∈ (Diff.new a b).superflous, Record.name r = n) ∧
        ¬(∃ r ∈ (Diff.new a b).missing, Record.name r = n) ∧
        ¬(∃ p ∈ (Diff.new a b).changed, Record.name (p : Record × Record).2 = n)) ∨
    (¬(∃ r ∈ (Diff.new a b).superflous, Record.name r = n) ∧
        (∃ r ∈ (Diff.new a b).missing, Record.name r = n) ∧
        ¬(∃ p ∈ (Diff.new a b).changed, Record.name (p : Record × Record).2 = n)) ∨
    (¬(∃ r ∈ (Diff.new a b).superflous, Record.name r = n) ∧
        ¬(∃ r ∈ (Diff.new a b).missing, Record.name r = n) ∧
        (∃ p ∈ (Diff.new a b).changed, Record.name (p : Record × Record).2 = n)) ∨
    (¬(∃ r ∈ (Diff.new a b).superflous, Record.name r = n) ∧
        ¬(∃ r ∈ (Diff.new a b).missing, Record.name r = n) ∧
        ¬(∃ p ∈ (Diff.new a b).changed, Record.name (p : Record × Record).2 = n)) := by
  have hS : ∀ r, r ∈ (Diff.new a b).superflous → r.name = n →
      mapGet (indexByName a) n = some r ∧ mapGet (indexByName b) n = none := by
    intro r hr hrn
    obtain ⟨h1, h2⟩ := (mem_superflous_iff a b r).mp hr
    rw [hrn] at h1 h2
    exact ⟨h1, h2⟩
  have hM : ∀ r, r ∈ (Diff.new a b).missing → r.name = n →
      mapGet (indexByName b) n = some r ∧ mapGet (indexByName a) n = none := by
    intro r hr hrn
    obtain ⟨h1, h2⟩ := (mem_missing_iff a b r).mp hr
    rw [hrn] at h1 h2
    exact ⟨h1, h2⟩
  have hC : ∀ d o : Record, (d, o) ∈ (Diff.new a b).changed → o.name = n →
      mapGet (indexByName a) n = some o ∧
      mapGet (indexByName b) n = some d ∧ o ≠ d := by
    intro d o hp hon
    obtain ⟨h1, h2, h3⟩ := (mem_changed_iff a b d o).mp hp
    rw [hon] at h1 h2
    exact ⟨h1, h2, h3⟩
  cases hga : mapGet (indexByName a) n with
  | some ra =>
    cases hgb : mapGet (indexByName b) n with
    | none =>
      left
      refine ⟨⟨ra, ?_, name_of_mapGet a n ra hga⟩, ?_, ?_⟩
      · exact (mem_superflous_iff a b ra).mpr
          (by rw [name_of_mapGet a n ra hga]; exact ⟨hga, hgb⟩)
      · rintro ⟨r, hr, hrn⟩
        obtain ⟨_, h2⟩ := hM r hr hrn
        rw [hga] at h2; exact Option.noConfusion h2
      · rintro ⟨p, hp, hpn⟩
        obtain ⟨d, o⟩ := p
        obtain ⟨_, h2, _⟩ := hC d o hp hpn
        rw [hgb] at h2; exact Option.noConfusion h2
    | some rb =>
      by_cases he : ra = rb
      · right; right; right
        refine ⟨?_, ?_, ?_⟩
        · rintro ⟨r, hr, hrn⟩
          obtain ⟨_, h2⟩ := hS r hr hrn
          rw [hgb] at h2; exact Option.noConfusion h2
        · rintro ⟨r, hr, hrn⟩
          obtain ⟨_, h2⟩ := hM r hr hrn
          rw [hga] at h2; exact Option.noConfusion h2
        · rintro ⟨p, hp, hpn⟩
          obtain ⟨d, o⟩ := p
          obtain ⟨h1, h2, h3⟩ := hC d o hp hpn
          rw [hga] at h1; rw [hgb] at h2
          exact h3 (((Option.some.inj h1).symm.trans he).trans (Option.some.inj h2))
      · right; right; left
        refine ⟨?_, ?_, ⟨(rb, ra), ?_, name_of_mapGet a n ra hga⟩⟩
        · rintro ⟨r, hr, hrn⟩
          obtain ⟨_, h2⟩ := hS r hr hrn
          rw [hgb] at h2; exact Option.noConfusion h2
        · rintro ⟨r, hr, hrn⟩
          obtain ⟨_, h2⟩ := hM r hr hrn
          rw [hga] at h2; exact Option.noConfusion h2
        · exact (mem_changed_iff a b rb ra).mpr
            (by rw [name_of_mapGet a n ra hga]; exact ⟨hga, hgb, he⟩)
  | none =>
    cases hgb : mapGet (indexByName b) n with
    | some rb =>
      right; left
      refine ⟨?_, ⟨rb, ?_, name_of_mapGet b n rb hgb⟩, ?_⟩
      · rintro ⟨r, hr, hrn⟩
        obtain ⟨h1, _⟩ := hS r hr hrn
        rw [hga] at h1; exact Option.noConfusion h1
      · exact (mem_missing_iff a b rb).mpr
          (by rw [name_of_mapGet b n rb hgb]; exact ⟨hgb, hga⟩)
      · rintro ⟨p, hp, hpn⟩
        obtain ⟨d, o⟩ := p
        obtain ⟨h1, _, _⟩ := hC d o hp hpn
        rw [hga] at h1; exact Option.noConfusion h1
    | none =>
      right; right; right
      refine ⟨?_, ?_, ?_⟩
      · rintro ⟨r, hr, hrn⟩
        obtain ⟨h1, _⟩ := hS r hr hrn
        rw [hga] at h1; exact Option.noConfusion h1
      · rintro ⟨r, hr, hrn⟩
        obtain ⟨h1, _⟩ := hM r hr hrn
        rw [hgb] at h1; exact Option.noConfusion h1
      · rintro ⟨p, hp, hpn⟩
        obtain ⟨d, o⟩ := p
        obtain ⟨h1, _, _⟩ := hC d o hp hpn
        rw [hga] at h1; exact Option.noConfusion h1

/-- Witness for diff_partition at observed [A x 1], desired [], name x. -/
theorem diff_partition_witness :
    ((∃ r ∈ (Diff.new [Record.A "x" "1"] []).superflous, Record.name r = "x") ∧
        ¬(∃ r ∈ (Diff.new [Record.A "x" "1"] []).missing, Record.name r = "x") ∧
        ¬(∃ p ∈ (Diff.new [Record.A "x" "1"] []).changed,
            Record.name (p : Record × Record).2 = "x")) ∨
    (¬(∃ r ∈ (Diff.new [Record.A "x" "1"] []).superflous, Record.name r = "x") ∧
        (∃ r ∈ (Diff.new [Record.A "x" "1"] []).missing, Record.name r = "x") ∧
        ¬(∃ p ∈ (Diff.new [Record.A "x" "1"] []).changed,
            Record.name (p : Record × Record).2 = "x")) ∨
    (¬(∃ r ∈ (Diff.new [Record.A "x" "1"] []).superflous, Record.name r = "x") ∧
        ¬(∃ r ∈ (Diff.new [Record.A "x" "1"] []).missing, Record.name r = "x") ∧
        (∃ p ∈ (Diff.new [Record.A "x" "1"] []).changed,
            Record.name (p : Record × Record).2 = "x")) ∨
    (¬(∃ r ∈ (Diff.new [Record.A "x" "1"] []).superflous, Record.name r = "x") ∧
        ¬(∃ r ∈ (Diff.new [Record.A "x" "1"] []).missing, Record.name r = "x") ∧
        ¬(∃ p ∈ (Diff.new [Record.A "x" "1"] []).changed,
            Record.name (p : Record × Record).2 = "x")) :=
  diff_partition [Record.A "x" "1"] [] "x" (by decide)

/-! ### Applying a diff (round-trip convergence) -/

/-- The update step the sync driver derives from a changed pair: a record
whose name carries a changed pair is replaced by the pair's desired record. -/
def applyUpdate (df : Diff) (r : Record) : Record :=
  match df.changed.find? (fun p => p.2.name == r.name) with
  | some p => p.1
  | none => r

/-- Applying a diff to the observed list: update every changed name to its
desired record, then create (append) every missing record. -/
def applyDiff (o : List Record) (df : Diff) : List Record :=
  o.map (applyUpdate df) ++ df.missing

theorem lastWithName_append (l1 l2 : List Record) (n : String) :
    lastWithName (l1 ++ l2) n =
      match lastWithName l2 n with
      | some r => some r
      | none => lastWithName l1 n := by
  induction l1 with
  | nil =>
    rw [List.nil_append]
    cases lastWithName l2 n <;> rfl
  | cons r l1 ih =>
    rw [List.cons_append]
    simp only [lastWithName]
    rw [ih]
    cases lastWithName l2 n <;> rfl

theorem lastWithName_map (g : Record → Record) (hg : ∀ r, (g r).name = r.name)
    (l : List Record) (n : String) :
    lastWithName (l.map g) n = (lastWithName l n).map g := by
  induction l with
  | nil => rfl
  | cons r l ih =>
    rw [List.map_cons]
    simp only [lastWithName]
    rw [ih, hg r]
    cases lastWithName l n with
    | some r' => rfl
    | none => by_cases hk : r.name = n <;> simp [hk]

theorem lastWithName_of_nodup (l : List Record)
    (hnd : (l.map Record.name).Nodup) (r : Record) (hr : r ∈ l) :
    lastWithName l r.name = some r := by
  induction l with
  | nil => cases hr
  | cons x l ih =>
    have hnd' : x.name ∉ l.map Record.name ∧ (l.map Record.name).Nodup := by
      rw [List.map_cons, List.nodup_cons] at hnd
      exact hnd
    obtain ⟨hx, hl⟩ := hnd'
    rcases List.mem_cons.mp hr with rfl | hr
    · have hnone : lastWithName l r.name = none :=
        (lastWithName_eq_none_iff l r.name).mpr fun y hy hyn =>
          hx (hyn ▸ List.mem_map_of_mem Record.name hy)
      simp [lastWithName, hnone]
    · have hsome : lastWithName l r.name = some r := ih hl hr
      simp [lastWithName, hsome]

theorem applyUpdate_name (O D : List Record) (r : Record) :
    (applyUpdate (Diff.new O D) r).name = r.name := by
  unfold applyUpdate
  cases hf : (Diff.new O D).changed.find? (fun p => p.2.name == r.name) with
  | none => rfl
  | some p =>
    have hp : p ∈ (Diff.new O D).changed := List.mem_of_find?_eq_some hf
    have hpr : p.2.name = r.name := by simpa using List.find?_some hf
    show p.1.name = r.name
    obtain ⟨d, o⟩ := p
    exact (changed_fst_name O D d o hp).trans hpr

theorem applyUpdate_of_both (O D : List Record) (n : String) (o0 d : Record)
    (hO : mapGet (indexByName O) n = some o0)
    (hd : mapGet (indexByName D) n = some d) :
    applyUpdate (Diff.new O D) o0 = d := by
  have ho0n : o0.name = n := name_of_mapGet O n o0 hO
  by_cases he : o0 = d
  · have hf : (Diff.new O D).changed.find?
        (fun p => p.2.name == o0.name) = none := by
      rw [List.find?_eq_none]
      intro p hp
      obtain ⟨q1, q2⟩ := p
      intro hpred
      have hq2n : q2.name = o0.name := by simpa using hpred
      obtain ⟨h1, h2, h3⟩ := (mem_changed_iff O D q1 q2).mp hp
      rw [hq2n, ho0n] at h1 h2
      rw [hO] at h1; rw [hd] at h2
      exact h3 (((Option.some.inj h1).symm.trans he).trans (Option.some.inj h2))
    unfold applyUpdate
    rw [hf]
    exact he
  · have hmem : (d, o0) ∈ (Diff.new O D).changed :=
      (mem_changed_iff O D d o0).mpr (by rw [ho0n]; exact ⟨hO, hd, he⟩)
    have hsome : ((Diff.new O D).changed.find?
        (fun p => p.2.name == o0.name)).isSome := by
      rw [List.find?_isSome]
      exact ⟨(d, o0), hmem, by simp⟩
    obtain ⟨q, hq⟩ := Option.isSome_iff_exists.mp hsome
    have hqmem : q ∈ (Diff.new O D).changed := List.mem_of_find?_eq_some hq
    have hqn : q.2.name = o0.name := by simpa using List.find?_some hq
    obtain ⟨q1, q2⟩ := q
    obtain ⟨h1, h2, _⟩ := (mem_changed_iff O D q1 q2).mp hqmem
    rw [hqn, ho0n] at h1 h2
    rw [hO] at h1; rw [hd] at h2
    unfold applyUpdate
    rw [hq]
    exact (Option.some.inj h2).symm

theorem mapGet_applyDiff (O D : List Record) (n : String) (d : Record)
    (hd : mapGet (indexByName D) n = some d) :
    mapGet (indexByName (applyDiff O (Diff.new O D))) n = some d := by
  rw [mapGet_indexByName]
  unfold applyDiff
  rw [lastWithName_append]
  cases hO : mapGet (indexByName O) n with
  | none =>
    have hdn : d.name = n := name_of_mapGet D n d hd
    have hdm : d ∈ (Diff.new O D).missing :=
      (mem_missing_iff O D d).mpr ⟨by rw [hdn]; exact hd, by rw [hdn]; exact hO⟩
    have hnodupM : ((Diff.new O D).missing.map Record.name).Nodup := by
      rw [Diff.new_missing]
      exact nodup_filter_entry_names _ (nodup_keys_indexByName D)
        (entry_name_indexByName D) _
    have hlast : lastWithName (Diff.new O D).missing n = some d := by
      have := lastWithName_of_nodup _ hnodupM d hdm
      rw [hdn] at this
      exact this
    rw [hlast]
  | some o0 =>
    have hnone : lastWithName (Diff.new O D).missing n = none :=
      (lastWithName_eq_none_iff _ n).mpr (by
        intro y hy hyn
        obtain ⟨_, h2⟩ := (mem_missing_iff O D y).mp hy
        rw [hyn, hO] at h2
        exact Option.noConfusion h2)
    rw [hnone]
    rw [lastWithName_map (applyUpdate (Diff.new O D)) (applyUpdate_name O D)]
    rw [show lastWithName O n = some o0 from by rw [← mapGet_indexByName]; exact hO]
    show some (applyUpdate (Diff.new O D) o0) = some d
    exact congrArg some (applyUpdate_of_both O D n o0 d hO hd)

/-- C7: after applying the diff of observed O against desired D to O
(updating every changed name to the desired record and creating every
missing record), re-diffing against D leaves no missing and no changed
records. -/
theorem diff_roundtrip_convergence (O D : List Record) :
    (Diff.new (applyDiff O (Diff.new O D)) D).missing = [] ∧
    (Diff.new (applyDiff O (Diff.new O D)) D).changed = [] := by
  constructor
  · apply List.eq_nil_iff_forall_not_mem.mpr
    intro r hr
    obtain ⟨h1, h2⟩ := (mem_missing_iff _ D r).mp hr
    have hup := mapGet_applyDiff O D r.name r h1
    rw [hup] at h2
    exact Option.noConfusion h2
  · apply List.eq_nil_iff_forall_not_mem.mpr
    intro p hp
    obtain ⟨d, o⟩ := p
    obtain ⟨h1, h2, h3⟩ := (mem_changed_iff _ D d o).mp hp
    have hup := mapGet_applyDiff O D o.name d h2
    rw [hup] at h1
    exact h3 (Option.some.inj h1).symm

/-! ### Zone expansion claims -/

theorem records_Public_eq (z : Zone) :
    z.records RecordTypeFilter.Public
      = z.networks.flatMap (fun n => n.public_records z.domain) := by
  simp [Zone.records, RecordTypeFilter.isPublic, RecordTypeFilter.isPrivate]

theorem records_Private_eq (z : Zone) :
    z.records RecordTypeFilter.Private
      = z.networks.flatMap
          (fun n => n.private_records z.private_namespace z.domain) := by
  simp [Zone.records, RecordTypeFilter.isPublic, RecordTypeFilter.isPrivate]

theorem records_Both_eq (z : Zone) :
    z.records RecordTypeFilter.Both
      = z.records RecordTypeFilter.Public ++ z.records RecordTypeFilter.Private := by
  simp [Zone.records, RecordTypeFilter.isPublic, RecordTypeFilter.isPrivate]

/-- C2: on the spec's worked scenario zone the Both expansion yields exactly
the three public alias records (no public self-alias for the root web1), the
two private address records and the two private alias records, in source
order. -/
theorem zone_scenario_records :
    Zone.records exZone RecordTypeFilter.Both =
      [Record.Cname "www.web.ex.com" "web1.web.ex.com",
       Record.Cname "web2.web.ex.com" "web1.web.ex.com",
       Record.Cname "web.ex.com" "web1.web.ex.com",
       Record.A "web1.web.internal.ex.com" "10.0.0.1",
       Record.Cname "www.web.internal.ex.com" "web1.web.internal.ex.com",
       Record.A "web2.web.internal.ex.com" "10.0.0.2",
       Record.Cname "web.internal.ex.com" "web1.web.internal.ex.com"] := by
  decide

/-- C3: each configured alias string a of a server s in network n yields in
the public expansion an alias a.n.domain pointing at the network root's
public name, and in the private expansion an alias a.n.pns.domain pointing
at the server's own private name. -/
theorem alias_asymmetry (z : Zone) (n : Network) (s : Server) (a : String)
    (hn : n ∈ z.networks) (hs : s ∈ n.servers) (ha : a ∈ s.aliases) :
    Record.Cname (a ++ "." ++ n.name ++ "." ++ z.domain)
        (n.root ++ "." ++ n.name ++ "." ++ z.domain) ∈
      z.records RecordTypeFilter.Public ∧
    Record.Cname
        (a ++ "." ++ n.name ++ "." ++ z.private_namespace ++ "." ++ z.domain)
        (s.name ++ "." ++ n.name ++ "." ++ z.private_namespace ++ "." ++ z.domain) ∈
      z.records RecordTypeFilter.Private := by
  constructor
  · rw [records_Public_eq]
    refine List.mem_flatMap.mpr ⟨n, hn, ?_⟩
    unfold Network.public_records
    refine List.mem_append.mpr (Or.inl (List.mem_flatMap.mpr ⟨s, hs, ?_⟩))
    unfold Server.public_records
    exact List.mem_append.mpr (Or.inr (List.mem_map.mpr ⟨a, ha, rfl⟩))
  · rw [records_Private_eq]
    refine List.mem_flatMap.mpr ⟨n, hn, ?_⟩
    unfold Network.private_records
    refine List.mem_append.mpr (Or.inl (List.mem_flatMap.mpr ⟨s, hs, ?_⟩))
    unfold Server.private_records
    refine List.mem_cons.mpr (Or.inr (List.mem_map.mpr ⟨a, ha, ?_⟩))
    congr 1 <;> (apply String.ext; simp [List.append_assoc])

/-- Witness for alias_asymmetry on the worked scenario: the alias www of
web1 in network web. -/
theorem alias_asymmetry_witness :
    Record.Cname ("www" ++ "." ++ exNetwork.name ++ "." ++ exZone.domain)
        (exNetwork.root ++ "." ++ exNetwork.name ++ "." ++ exZone.domain) ∈
      exZone.records RecordTypeFilter.Public ∧
    Record.Cname
        ("www" ++ "." ++ exNetwork.name ++ "." ++ exZone.private_namespace ++
          "." ++ exZone.domain)
        (exServer1.name ++ "." ++ exNetwork.name ++ "." ++
          exZone.private_namespace ++ "." ++ exZone.domain) ∈
      exZone.records RecordTypeFilter.Private :=
  alias_asymmetry exZone exNetwork exServer1 "www" (by decide) (by decide)
    (by decide)

theorem public_records_all_cname (n : Network) (domain : String) (r : Record)
    (hr : r ∈ n.public_records domain) :
    ∃ nm v : String, r = Record.Cname nm v := by
  unfold Network.public_records at hr
  rcases List.mem_append.mp hr with hr | hr
  · obtain ⟨s, hs, hrs⟩ := List.mem_flatMap.mp hr
    unfold Server.public_records at hrs
    rcases List.mem_append.mp hrs with hrs | hrs
    · by_cases hroot : s.name = n.root
      · rw [if_pos hroot] at hrs
        cases hrs
      · rw [if_neg hroot, List.mem_singleton] at hrs
        exact ⟨_, _, hrs⟩
    · obtain ⟨a, ha, rfl⟩ := List.mem_map.mp hrs
      exact ⟨_, _, rfl⟩
  · rw [List.mem_singleton] at hr
    exact ⟨_, _, hr⟩

theorem a_record_private (n : Network) (pns domain nm v : String)
    (h : Record.A nm v ∈ n.private_records pns domain) :
    ∃ s ∈ n.servers,
      nm = s.name ++ "." ++ n.name ++ "." ++ pns ++ "." ++ domain ∧
      v = s.private_ip := by
  unfold Network.private_records at h
  rcases List.mem_append.mp h with h | h
  · obtain ⟨s, hs, hrs⟩ := List.mem_flatMap.mp h
    unfold Server.private_records at hrs
    rcases List.mem_cons.mp hrs with heq | hrs
    · injection heq with h1 h2
      refine ⟨s, hs, ?_, h2⟩
      rw [h1]
      apply String.ext
      simp [List.append_assoc]
    · obtain ⟨a, ha, heq⟩ := List.mem_map.mp hrs
      exact Record.noConfusion heq
  · rw [List.mem_singleton] at h
    exact Record.noConfusion h

/-- C9: every address record of any expansion comes from the private half
and is the server's own private name mapped to its private_ip; every record
of the public expansion is an alias record. -/
theorem address_records_private_only (z : Zone) (f : RecordTypeFilter) :
    (∀ nm v : String, Record.A nm v ∈ z.records f →
        f.isPrivate = true ∧
        Record.A nm v ∈ z.networks.flatMap
          (fun n => n.private_records z.private_namespace z.domain) ∧
        ∃ n ∈ z.networks, ∃ s ∈ n.servers,
          nm = s.name ++ "." ++ n.name ++ "." ++ z.private_namespace ++
            "." ++ z.domain ∧
          v = s.private_ip) ∧
    (∀ r ∈ z.records RecordTypeFilter.Public,
        ∃ nm v : String, r = Record.Cname nm v) := by
  constructor
  · intro nm v hmem
    unfold Zone.records at hmem
    rcases List.mem_append.mp hmem with h | h
    · by_cases hpub : f.isPublic = true
      · rw [if_pos hpub] at h
        obtain ⟨n, hn, hrn⟩ := List.mem_flatMap.mp h
        obtain ⟨nm', v', heq⟩ := public_records_all_cname n z.domain _ hrn
        exact Record.noConfusion heq
      · rw [if_neg hpub] at h
        cases h
    · by_cases hpriv : f.isPrivate = true
      · rw [if_pos hpriv] at h
        refine ⟨hpriv, h, ?_⟩
        obtain ⟨n, hn, hrn⟩ := List.mem_flatMap.mp h
        obtain ⟨s, hs, h1, h2⟩ :=
          a_record_private n z.private_namespace z.domain nm v hrn
        exact ⟨n, hn, s, hs, h1, h2⟩
      · rw [if_neg hpriv] at h
        cases h
  · intro r hr
    rw [records_Public_eq] at hr
    obtain ⟨n, hn, hrn⟩ := List.mem_flatMap.mp hr
    exact public_records_all_cname n z.domain r hrn

/-! ### Filter decomposition and name disjointness -/

/-- A zone whose second network name reuses the dot and the private token:
its public expansion and private expansion share the record name n.p.d. -/
def cZone : Zone :=
  { domain := "d", private_namespace := "p",
    networks := [{ name := "n", root := "r", servers := [] },
                 { name := "n.p", root := "r", servers := [] }] }

/-- Counterexample to C4 as stated: for cZone a record name of the Public
expansion also occurs in the Private expansion (network "n.p" publicly
yields n.p.d, network "n" privately yields n.p.d). -/
theorem filter_overlap_counterexample :
    ∃ r ∈ cZone.records RecordTypeFilter.Public,
      ∃ r' ∈ cZone.records RecordTypeFilter.Private,
        Record.name r = Record.name r' := by
  decide

/-- The string has no dot character. -/
abbrev noDot (s : String) : Prop := ∀ c ∈ s.data, c ≠ '.'

theorem dotSplit (l1 : List Char) :
    ∀ l2 r1 r2 : List Char, (∀ c ∈ l1, c ≠ '.') → (∀ c ∈ l2, c ≠ '.') →
      l1 ++ '.' :: r1 = l2 ++ '.' :: r2 → l1 = l2 ∧ r1 = r2 := by
  induction l1 with
  | nil =>
    intro l2 r1 r2 _ h2 heq
    cases l2 with
    | nil => simpa using heq
    | cons c l2 =>
      simp only [List.nil_append, List.cons_append, List.cons.injEq] at heq
      exact absurd heq.1.symm (h2 c (List.mem_cons_self c l2))
  | cons c l1 ih =>
    intro l2 r1 r2 h1 h2 heq
    cases l2 with
    | nil =>
      simp only [List.cons_append, List.nil_append, List.cons.injEq] at heq
      exact absurd heq.1 (h1 c (List.mem_cons_self c l1))
    | cons c' l2 =>
      simp only [List.cons_append, List.cons.injEq] at heq
      obtain ⟨hc, hrest⟩ := heq
      obtain ⟨hl, hr⟩ := ih l2 r1 r2
        (fun x hx => h1 x (List.mem_cons_of_mem c hx))
        (fun x hx => h2 x (List.mem_cons_of_mem c' hx)) hrest
      exact ⟨by rw [hc, hl], hr⟩

theorem no_self_extension (d e : List Char) (c : Char) : d ≠ e ++ c :: d := by
  intro h
  have hlen := congrArg List.length h
  simp [List.length_append] at hlen
  omega

theorem no_self_extension2 (d e f : List Char) (c c' : Char) :
    d ≠ e ++ c :: (f ++ c' :: d) := by
  intro h
  have hlen := congrArg List.length h
  simp [List.length_append] at hlen
  omega

theorem data3 (x y d : String) :
    (x ++ "." ++ y ++ "." ++ d).data
      = x.data ++ '.' :: (y.data ++ '.' :: d.data) := by
  simp [List.append_assoc]

theorem data4 (y w p d : String) :
    (y ++ "." ++ (w ++ "." ++ p) ++ "." ++ d).data
      = y.data ++ '.' :: (w.data ++ '.' :: (p.data ++ '.' :: d.data)) := by
  simp [List.append_assoc]

theorem data2 (u d : String) :
    (u ++ "." ++ d).data = u.data ++ '.' :: d.data := by
  simp

theorem public_name_shape (n : Network) (domain : String)
    (hn : noDot n.name ∧
      ∀ s ∈ n.servers, noDot s.name ∧ ∀ a ∈ s.aliases, noDot a)
    (r : Record) (hr : r ∈ n.public_records domain) :
    (∃ x : String, noDot x ∧
        Record.name r = x ++ "." ++ n.name ++ "." ++ domain) ∨
    Record.name r = n.name ++ "." ++ domain := by
  unfold Network.public_records at hr
  rcases List.mem_append.mp hr with hr | hr
  · obtain ⟨s, hs, hrs⟩ := List.mem_flatMap.mp hr
    unfold Server.public_records at hrs
    rcases List.mem_append.mp hrs with hrs | hrs
    · by_cases hroot : s.name = n.root
      · rw [if_pos hroot] at hrs
        cases hrs
      · rw [if_neg hroot, List.mem_singleton] at hrs
        subst hrs
        exact Or.inl ⟨s.name, (hn.2 s hs).1, rfl⟩
    · obtain ⟨a, ha, rfl⟩ := List.mem_map.mp hrs
      exact Or.inl ⟨a, (hn.2 s hs).2 a ha, rfl⟩
  · rw [List.mem_singleton] at hr
    subst hr
    exact Or.inr rfl

theorem private_name_shape (n : Network) (pns domain : String)
    (hn : noDot n.name ∧
      ∀ s ∈ n.servers, noDot s.name ∧ ∀ a ∈ s.aliases, noDot a)
    (r : Record) (hr : r ∈ n.private_records pns domain) :
    (∃ x : String, noDot x ∧
        Record.name r = x ++ "." ++ (n.name ++ "." ++ pns) ++ "." ++ domain) ∨
    Record.name r = n.name ++ "." ++ pns ++ "." ++ domain := by
  unfold Network.private_records at hr
  rcases List.mem_append.mp hr with hr | hr
  · obtain ⟨s, hs, hrs⟩ := List.mem_flatMap.mp hr
    unfold Server.private_records at hrs
    rcases List.mem_cons.mp hrs with rfl | hrs
    · exact Or.inl ⟨s.name, (hn.2 s hs).1, rfl⟩
    · obtain ⟨a, ha, rfl⟩ := List.mem_map.mp hrs
      exact Or.inl ⟨a, (hn.2 s hs).2 a ha, rfl⟩
  · rw [List.mem_singleton] at hr
    subst hr
    exact Or.inr rfl

/-- C4 amended: the Both expansion is always the Public expansion followed
by the Private one (so equals their union as a set); the Public and Private
halves share no record name provided every network name, server name and
alias, and the private token, are dot-free, and no network is named like
the private token. The provisos are forced by filter_overlap_counterexample,
whose network name n.p embeds a dot and the private token. -/
theorem filter_decomposition_amended (z : Zone)
    (hnet : ∀ n ∈ z.networks, noDot n.name ∧
        ∀ s ∈ n.servers, noDot s.name ∧ ∀ a ∈ s.aliases, noDot a)
    (hp : noDot z.private_namespace)
    (hne : ∀ n ∈ z.networks, n.name ≠ z.private_namespace) :
    z.records RecordTypeFilter.Both =
      z.records RecordTypeFilter.Public ++ z.records RecordTypeFilter.Private ∧
    ∀ r ∈ z.records RecordTypeFilter.Public,
      ∀ r' ∈ z.records RecordTypeFilter.Private,
        Record.name r ≠ Record.name r' := by
  refine ⟨records_Both_eq z, ?_⟩
  intro r hr r' hr' heq
  rw [records_Public_eq] at hr
  rw [records_Private_eq] at hr'
  obtain ⟨n1, hn1, hr1⟩ := List.mem_flatMap.mp hr
  obtain ⟨n2, hn2, hr2⟩ := List.mem_flatMap.mp hr'
  have h1 := public_name_shape n1 z.domain (hnet n1 hn1) r hr1
  have h2 := private_name_shape n2 z.private_namespace z.domain
    (hnet n2 hn2) r' hr2
  have hu : noDot n1.name := (hnet n1 hn1).1
  have hw : noDot n2.name := (hnet n2 hn2).1
  rcases h1 with ⟨x, hx, hnm1⟩ | hnm1 <;> rcases h2 with ⟨y, hy, hnm2⟩ | hnm2 <;>
    rw [hnm1, hnm2] at heq
  · have hd := congrArg String.data heq
    rw [data3, data4] at hd
    obtain ⟨-, hd2⟩ := dotSplit x.data y.data _ _ hx hy hd
    obtain ⟨-, hd3⟩ := dotSplit n1.name.data n2.name.data _ _ hu hw hd2
    exact no_self_extension z.domain.data z.private_namespace.data '.' hd3
  · have hd := congrArg String.data heq
    rw [data3, data3] at hd
    obtain ⟨-, hd2⟩ := dotSplit x.data n2.name.data _ _ hx hw hd
    obtain ⟨hd3, -⟩ :=
      dotSplit n1.name.data z.private_namespace.data _ _ hu hp hd2
    exact hne n1 hn1 (String.ext hd3)
  · have hd := congrArg String.data heq
    rw [data2, data4] at hd
    obtain ⟨-, hd2⟩ := dotSplit n1.name.data y.data _ _ hu hy hd
    exact no_self_extension2 z.domain.data n2.name.data
      z.private_namespace.data '.' '.' hd2
  · have hd := congrArg String.data heq
    rw [data2, data3] at hd
    obtain ⟨-, hd2⟩ := dotSplit n1.name.data n2.name.data _ _ hu hw hd
    exact no_self_extension z.domain.data z.private_namespace.data '.' hd2

/-- Witness for filter_decomposition_amended on the worked scenario zone,
whose labels are dot-free and whose only network is not named internal. -/
theorem filter_decomposition_witness :
    (exZone.records RecordTypeFilter.Both =
      exZone.records RecordTypeFilter.Public ++
        exZone.records RecordTypeFilter.Private) ∧
    ∀ r ∈ exZone.records RecordTypeFilter.Public,
      ∀ r' ∈ exZone.records RecordTypeFilter.Private,
        Record.name r ≠ Record.name r' :=
  filter_decomposition_amended exZone (by decide) (by decide) (by decide)
